import Mathlib

/-!
Verification of the rotary positional-embedding transform in
official/nlp/modeling/layers/roformer_attention.py.

Tensors are modelled along the last axis as lists of reals; a query/key
tensor is a list of per-position feature rows.  TensorFlow elementwise
operations require matching shapes, and tf.reshape requires matching
element counts; both are modelled with Option-valued operations that
return none on a shape mismatch.  Floating-point arithmetic is modelled
by real arithmetic.
-/

namespace Roformer

noncomputable section

/-- Python slicing xs[::2]: every second element starting at index 0. -/
def strided : List ℝ → List ℝ
  | [] => []
  | [x] => [x]
  | x :: _ :: rest => x :: strided rest

/-- tf.repeat(xs, repeats=2, axis=-1): each element duplicated in place. -/
def repeat2 : List ℝ → List ℝ
  | [] => []
  | x :: rest => x :: x :: repeat2 rest

/-- The frequency value 10000^(-2*i/steps) with steps = key_dim // 2,
from tf.pow(10000.0, -2 * indices / steps). -/
def freqv (key_dim i : ℕ) : ℝ :=
  (10000 : ℝ) ^ (((-2 : ℝ) * (i : ℝ)) / ((key_dim / 2 : ℕ) : ℝ))

/-- The row of frequencies, indices i = 0, ..., key_dim//2 - 1. -/
def freqList (key_dim : ℕ) : List ℝ :=
  (List.range (key_dim / 2)).map (fun i => freqv key_dim i)

/-- vec = einsum(bl,d->bld, position_ids, indices): the angle row at
position p is p * freq[i] for each frequency index i. -/
def trigAngles (length key_dim : ℕ) : List (List ℝ) :=
  (List.range length).map (fun p : ℕ => (freqList key_dim).map (fun f => (p : ℝ) * f))

/-- The pair returned by _build_trig_vector(length, key_dim): the sin
table and the cos table, one row per position, each raw entry
duplicated by tf.repeat(..., 2). -/
def build_trig_vector (length key_dim : ℕ) : List (List ℝ) × List (List ℝ) :=
  ((trigAngles length key_dim).map (fun row => repeat2 (row.map Real.sin)),
   (trigAngles length key_dim).map (fun row => repeat2 (row.map Real.cos)))

/-- Elementwise tensor product along the last axis; TensorFlow rejects
mismatched (non-broadcastable) shapes, modelled as none. -/
def tfMul (xs ys : List ℝ) : Option (List ℝ) :=
  if xs.length = ys.length then some (List.zipWith (fun a b => a * b) xs ys) else none

/-- Elementwise tensor sum along the last axis, with the same shape rule. -/
def tfAdd (xs ys : List ℝ) : Option (List ℝ) :=
  if xs.length = ys.length then some (List.zipWith (fun a b => a + b) xs ys) else none

/-- tf.reshape back to the original row width: fails unless the element
count already matches. -/
def tfReshape (target : ℕ) (xs : List ℝ) : Option (List ℝ) :=
  if xs.length = target then some xs else none

/-- tf.stack([-q[..., 1::2], q[..., ::2]], axis=4) followed by the
reshape flattening: interleaves the negated odd slice with the even
slice, so entry 2k is -q[2k+1] and entry 2k+1 is q[2k]. -/
def swapNegCore (xs : List ℝ) : List ℝ :=
  (((strided xs.tail).map (fun a => -a)).zip (strided xs)).flatMap (fun p => [p.1, p.2])

/-- One row of ret_q = q * q_cos_vec + q2 * q_sin_vec, with q2 the
reshaped stack; every step carries the TensorFlow shape checks. -/
def rotateRow (row sinRow cosRow : List ℝ) : Option (List ℝ) := do
  let row2 ← tfReshape row.length (swapNegCore row)
  let a ← tfMul row cosRow
  let b ← tfMul row2 sinRow
  tfAdd a b

/-- Three-way zip, used to pair each feature row with its table rows. -/
def zipWith3 (f : List ℝ → List ℝ → List ℝ → Option (List ℝ)) :
    List (List ℝ) → List (List ℝ) → List (List ℝ) → List (Option (List ℝ))
  | a :: as, b :: bs, c :: cs => f a b c :: zipWith3 f as bs cs
  | _, _, _ => []

/-- Collects a list of optional rows; any failed row fails the tensor. -/
def seqOpt : List (Option (List ℝ)) → Option (List (List ℝ))
  | [] => some []
  | o :: os => o.bind (fun x => (seqOpt os).map (fun xs => x :: xs))

/-- The rotation applied to one whole tensor: the table is built for the
tensor's own sequence length (tf.shape(q)[1]), then each position row is
rotated with its own sin/cos rows. -/
def rotateTensor (key_dim : ℕ) (feats : List (List ℝ)) : Option (List (List ℝ)) :=
  seqOpt (zipWith3 rotateRow feats
    (build_trig_vector feats.length key_dim).1
    (build_trig_vector feats.length key_dim).2)

/-- roformer_recompute_qkv(q, k, v): rotates q with a table for q's
length and k with a table for k's length, and passes v through. -/
def roformer_recompute_qkv (key_dim : ℕ) (q k v : List (List ℝ)) :
    Option (List (List ℝ) × List (List ℝ) × List (List ℝ)) :=
  (rotateTensor key_dim q).bind (fun q2 =>
    (rotateTensor key_dim k).map (fun k2 => (q2, k2, v)))

end

theorem repeat2_length (xs : List ℝ) : (repeat2 xs).length = 2 * xs.length := by
  induction xs with
  | nil => simp [repeat2]
  | cons x rest ih => simp only [repeat2, List.length_cons, ih]; omega

theorem repeat2_getD_even (xs : List ℝ) (k : ℕ) (d : ℝ) (h : k < xs.length) :
    (repeat2 xs).getD (2 * k) d = xs.getD k d := by
  induction xs generalizing k with
  | nil => simp at h
  | cons x rest ih =>
    cases k with
    | zero => simp [repeat2]
    | succ k =>
      have h2 : 2 * (k + 1) = 2 * k + 1 + 1 := by ring
      rw [h2, repeat2, List.getD_cons_succ, List.getD_cons_succ, List.getD_cons_succ]
      exact ih k (by simp at h; omega)

theorem repeat2_getD_odd (xs : List ℝ) (k : ℕ) (d : ℝ) (h : k < xs.length) :
    (repeat2 xs).getD (2 * k + 1) d = xs.getD k d := by
  induction xs generalizing k with
  | nil => simp at h
  | cons x rest ih =>
    cases k with
    | zero => simp [repeat2]
    | succ k =>
      have h2 : 2 * (k + 1) + 1 = 2 * k + 1 + 1 + 1 := by ring
      rw [h2, repeat2, List.getD_cons_succ, List.getD_cons_succ, List.getD_cons_succ]
      exact ih k (by simp at h; omega)

theorem swapNegCore_nil : swapNegCore [] = [] := by
  simp [swapNegCore, strided]

theorem swapNegCore_single (x : ℝ) : swapNegCore [x] = [] := by
  simp [swapNegCore, strided]

theorem swapNegCore_cons_cons (x y : ℝ) (rest : List ℝ) :
    swapNegCore (x :: y :: rest) = -y :: x :: swapNegCore rest := by
  cases rest with
  | nil => simp [swapNegCore, strided]
  | cons z r => simp [swapNegCore, strided]

theorem swapNegCore_length : ∀ xs : List ℝ, (swapNegCore xs).length = 2 * (xs.length / 2)
  | [] => by simp [swapNegCore_nil]
  | [x] => by simp [swapNegCore_single]
  | x :: y :: rest => by
    rw [swapNegCore_cons_cons]
    have ih := swapNegCore_length rest
    simp only [List.length_cons, ih]
    omega

theorem swapNegCore_getD_even : ∀ (xs : List ℝ) (k : ℕ) (d : ℝ), 2 * k + 1 < xs.length →
    (swapNegCore xs).getD (2 * k) d = -(xs.getD (2 * k + 1) d)
  | [], k, d, h => by simp at h
  | [x], k, d, h => by simp at h
  | x :: y :: rest, k, d, h => by
    rw [swapNegCore_cons_cons]
    cases k with
    | zero => simp
    | succ k =>
      have e1 : 2 * (k + 1) = 2 * k + 1 + 1 := by ring
      rw [e1, List.getD_cons_succ, List.getD_cons_succ, List.getD_cons_succ,
        List.getD_cons_succ]
      exact swapNegCore_getD_even rest k d (by simp at h; omega)

theorem swapNegCore_getD_odd : ∀ (xs : List ℝ) (k : ℕ) (d : ℝ), 2 * k + 1 < xs.length →
    (swapNegCore xs).getD (2 * k + 1) d = xs.getD (2 * k) d
  | [], k, d, h => by simp at h
  | [x], k, d, h => by simp at h
  | x :: y :: rest, k, d, h => by
    rw [swapNegCore_cons_cons]
    cases k with
    | zero => simp
    | succ k =>
      have e1 : 2 * (k + 1) = 2 * k + 1 + 1 := by ring
      rw [e1, List.getD_cons_succ, List.getD_cons_succ, List.getD_cons_succ,
        List.getD_cons_succ]
      exact swapNegCore_getD_odd rest k d (by simp at h; omega)

theorem getD_map_range {α : Type} (f : ℕ → α) (n p : ℕ) (h : p < n) (d : α) :
    ((List.range n).map f).getD p d = f p := by
  rw [List.getD_eq_getElem _ _ (by simpa using h)]
  simp

theorem getD_map_lt (f : ℝ → ℝ) (xs : List ℝ) (k : ℕ) (h : k < xs.length) (d e : ℝ) :
    (xs.map f).getD k d = f (xs.getD k e) := by
  rw [List.getD_eq_getElem _ _ (by simpa using h), List.getD_eq_getElem _ _ h]
  simp

theorem freqList_length (w : ℕ) : (freqList w).length = w / 2 := by
  simp [freqList]

theorem freqList_getD (w k : ℕ) (hk : k < w / 2) : (freqList w).getD k 0 = freqv w k := by
  rw [freqList, getD_map_range _ _ _ hk]

theorem sin_table_row (L w p : ℕ) (hp : p < L) :
    (build_trig_vector L w).1.getD p []
      = repeat2 (((freqList w).map (fun f => (p : ℝ) * f)).map Real.sin) := by
  simp only [build_trig_vector, trigAngles, List.map_map, Function.comp_def]
  exact getD_map_range _ _ _ hp _

theorem cos_table_row (L w p : ℕ) (hp : p < L) :
    (build_trig_vector L w).2.getD p []
      = repeat2 (((freqList w).map (fun f => (p : ℝ) * f)).map Real.cos) := by
  simp only [build_trig_vector, trigAngles, List.map_map, Function.comp_def]
  exact getD_map_range _ _ _ hp _

theorem table_lengths (L w : ℕ) :
    (build_trig_vector L w).1.length = L ∧ (build_trig_vector L w).2.length = L := by
  constructor <;> simp [build_trig_vector, trigAngles]

theorem sin_table_row_length (L w p : ℕ) (hp : p < L) :
    ((build_trig_vector L w).1.getD p []).length = 2 * (w / 2) := by
  rw [sin_table_row L w p hp, repeat2_length]
  simp [freqList_length]

theorem cos_table_row_length (L w p : ℕ) (hp : p < L) :
    ((build_trig_vector L w).2.getD p []).length = 2 * (w / 2) := by
  rw [cos_table_row L w p hp, repeat2_length]
  simp [freqList_length]

theorem sin_table_entry (L w p k : ℕ) (hp : p < L) (hk : k < w / 2) :
    ((build_trig_vector L w).1.getD p []).getD (2 * k) 0
        = Real.sin ((p : ℝ) * freqv w k)
      ∧ ((build_trig_vector L w).1.getD p []).getD (2 * k + 1) 0
        = Real.sin ((p : ℝ) * freqv w k) := by
  have hlen : (((freqList w).map (fun f => (p : ℝ) * f)).map Real.sin).length = w / 2 := by
    simp [freqList_length]
  have hval : (((freqList w).map (fun f => (p : ℝ) * f)).map Real.sin).getD k 0
      = Real.sin ((p : ℝ) * freqv w k) := by
    rw [getD_map_lt _ _ _ (by simp [freqList_length]; exact hk) 0 0,
      getD_map_lt _ _ _ (by simp [freqList_length]; exact hk) 0 0, freqList_getD w k hk]
  rw [sin_table_row L w p hp]
  constructor
  · rw [repeat2_getD_even _ _ _ (by rw [hlen]; exact hk)]; exact hval
  · rw [repeat2_getD_odd _ _ _ (by rw [hlen]; exact hk)]; exact hval

theorem cos_table_entry (L w p k : ℕ) (hp : p < L) (hk : k < w / 2) :
    ((build_trig_vector L w).2.getD p []).getD (2 * k) 0
        = Real.cos ((p : ℝ) * freqv w k)
      ∧ ((build_trig_vector L w).2.getD p []).getD (2 * k + 1) 0
        = Real.cos ((p : ℝ) * freqv w k) := by
  have hlen : (((freqList w).map (fun f => (p : ℝ) * f)).map Real.cos).length = w / 2 := by
    simp [freqList_length]
  have hval : (((freqList w).map (fun f => (p : ℝ) * f)).map Real.cos).getD k 0
      = Real.cos ((p : ℝ) * freqv w k) := by
    rw [getD_map_lt _ _ _ (by simp [freqList_length]; exact hk) 0 0,
      getD_map_lt _ _ _ (by simp [freqList_length]; exact hk) 0 0, freqList_getD w k hk]
  rw [cos_table_row L w p hp]
  constructor
  · rw [repeat2_getD_even _ _ _ (by rw [hlen]; exact hk)]; exact hval
  · rw [repeat2_getD_odd _ _ _ (by rw [hlen]; exact hk)]; exact hval

/-- The value rotateRow produces once every shape check succeeds. -/
noncomputable def rotCore (row sinRow cosRow : List ℝ) : List ℝ :=
  List.zipWith (fun a b => a + b) (List.zipWith (fun a b => a * b) row cosRow)
    (List.zipWith (fun a b => a * b) (swapNegCore row) sinRow)

theorem rotateRow_eq_some (row sinRow cosRow : List ℝ)
    (hrow : 2 * (row.length / 2) = row.length)
    (hsin : sinRow.length = row.length) (hcos : cosRow.length = row.length) :
    rotateRow row sinRow cosRow = some (rotCore row sinRow cosRow) := by
  have h2 : (swapNegCore row).length = row.length := by
    rw [swapNegCore_length]; exact hrow
  simp [rotateRow, tfReshape, tfMul, tfAdd, h2, hsin, hcos, rotCore,
    List.length_zipWith]

theorem rotCore_length (row sinRow cosRow : List ℝ)
    (hrow : 2 * (row.length / 2) = row.length)
    (hsin : sinRow.length = row.length) (hcos : cosRow.length = row.length) :
    (rotCore row sinRow cosRow).length = row.length := by
  have h2 : (swapNegCore row).length = row.length := by
    rw [swapNegCore_length]; exact hrow
  simp [rotCore, List.length_zipWith, h2, hsin, hcos]

theorem rotCore_getD (row sinRow cosRow : List ℝ) (j : ℕ)
    (hrow : 2 * (row.length / 2) = row.length)
    (hsin : sinRow.length = row.length) (hcos : cosRow.length = row.length)
    (hj : j < row.length) :
    (rotCore row sinRow cosRow).getD j 0
      = row.getD j 0 * cosRow.getD j 0 + (swapNegCore row).getD j 0 * sinRow.getD j 0 := by
  have h2 : (swapNegCore row).length = row.length := by
    rw [swapNegCore_length]; exact hrow
  have hl : (rotCore row sinRow cosRow).length = row.length :=
    rotCore_length row sinRow cosRow hrow hsin hcos
  rw [List.getD_eq_getElem _ _ (by rw [hl]; exact hj),
    List.getD_eq_getElem _ _ hj,
    List.getD_eq_getElem _ _ (by rw [hcos]; exact hj),
    List.getD_eq_getElem _ _ (by rw [h2]; exact hj),
    List.getD_eq_getElem _ _ (by rw [hsin]; exact hj)]
  simp [rotCore, List.getElem_zipWith]

/-- The two entries of a rotated coordinate pair, in terms of the raw
features and the angle p * freq[k]. -/
theorem rotCore_table_pair (L w p k : ℕ) (row : List ℝ) (hw : w % 2 = 0)
    (hrow : row.length = w) (hp : p < L) (hk : 2 * k + 1 < w) :
    (rotCore row ((build_trig_vector L w).1.getD p [])
        ((build_trig_vector L w).2.getD p [])).getD (2 * k) 0
      = row.getD (2 * k) 0 * Real.cos ((p : ℝ) * freqv w k)
        - row.getD (2 * k + 1) 0 * Real.sin ((p : ℝ) * freqv w k)
    ∧ (rotCore row ((build_trig_vector L w).1.getD p [])
        ((build_trig_vector L w).2.getD p [])).getD (2 * k + 1) 0
      = row.getD (2 * k + 1) 0 * Real.cos ((p : ℝ) * freqv w k)
        + row.getD (2 * k) 0 * Real.sin ((p : ℝ) * freqv w k) := by
  have hweven : 2 * (w / 2) = w := by omega
  have hkd : k < w / 2 := by omega
  have hrow2 : 2 * (row.length / 2) = row.length := by rw [hrow]; exact hweven
  have hsin : ((build_trig_vector L w).1.getD p []).length = row.length := by
    rw [sin_table_row_length L w p hp, hrow, hweven]
  have hcos : ((build_trig_vector L w).2.getD p []).length = row.length := by
    rw [cos_table_row_length L w p hp, hrow, hweven]
  have hsv := sin_table_entry L w p k hp hkd
  have hcv := cos_table_entry L w p k hp hkd
  constructor
  · rw [rotCore_getD _ _ _ _ hrow2 hsin hcos (by omega),
      swapNegCore_getD_even row k 0 (by omega), hsv.1, hcv.1]
    ring
  · rw [rotCore_getD _ _ _ _ hrow2 hsin hcos (by omega),
      swapNegCore_getD_odd row k 0 (by omega), hsv.2, hcv.2]

theorem zipWith3_length (f : List ℝ → List ℝ → List ℝ → Option (List ℝ)) :
    ∀ as bs cs : List (List ℝ),
      (zipWith3 f as bs cs).length = min (min as.length bs.length) cs.length
  | [], bs, cs => by simp [zipWith3]
  | a :: as, [], cs => by simp [zipWith3]
  | a :: as, b :: bs, [] => by simp [zipWith3]
  | a :: as, b :: bs, c :: cs => by
    simp only [zipWith3, List.length_cons, zipWith3_length f as bs cs]
    omega

theorem zipWith3_getD (f : List ℝ → List ℝ → List ℝ → Option (List ℝ)) :
    ∀ (as bs cs : List (List ℝ)) (p : ℕ), p < as.length → p < bs.length → p < cs.length →
      (zipWith3 f as bs cs).getD p none = f (as.getD p []) (bs.getD p []) (cs.getD p [])
  | [], _, _, p, h1, _, _ => by simp at h1
  | a :: as, [], _, p, _, h2, _ => by simp at h2
  | a :: as, b :: bs, [], p, _, _, h3 => by simp at h3
  | a :: as, b :: bs, c :: cs, 0, _, _, _ => by simp [zipWith3]
  | a :: as, b :: bs, c :: cs, p + 1, h1, h2, h3 => by
    simp only [zipWith3, List.getD_cons_succ]
    exact zipWith3_getD f as bs cs p (by simpa using h1) (by simpa using h2)
      (by simpa using h3)

theorem seqOpt_spec : ∀ l : List (Option (List ℝ)), (∀ o ∈ l, o.isSome) →
    ∃ out, seqOpt l = some out ∧ out.length = l.length ∧
      ∀ i, i < l.length → l.getD i none = some (out.getD i [])
  | [], _ => ⟨[], by simp [seqOpt], by simp, by simp⟩
  | o :: os, h => by
    obtain ⟨x, hx⟩ := Option.isSome_iff_exists.mp (h o (by simp))
    obtain ⟨out, ho, hlen, hent⟩ := seqOpt_spec os (fun o2 ho2 => h o2 (by simp [ho2]))
    refine ⟨x :: out, ?_, by simp [hlen], ?_⟩
    · simp [seqOpt, hx, ho]
    · intro i hi
      cases i with
      | zero => simp [hx]
      | succ i => simpa using hent i (by simpa using hi)

theorem seqOpt_head_none (os : List (Option (List ℝ))) : seqOpt (none :: os) = none := by
  simp [seqOpt]

/-- Successful run of the whole per-tensor rotation: even width and
full-width rows give some output, one rotated row per position. -/
theorem rotateTensor_spec (w : ℕ) (feats : List (List ℝ)) (hw : w % 2 = 0)
    (hrows : ∀ r ∈ feats, r.length = w) :
    ∃ out, rotateTensor w feats = some out ∧ out.length = feats.length ∧
      ∀ p, p < feats.length →
        out.getD p [] = rotCore (feats.getD p [])
          ((build_trig_vector feats.length w).1.getD p [])
          ((build_trig_vector feats.length w).2.getD p []) := by
  have hweven : 2 * (w / 2) = w := by omega
  have ht1 : (build_trig_vector feats.length w).1.length = feats.length :=
    (table_lengths feats.length w).1
  have ht2 : (build_trig_vector feats.length w).2.length = feats.length :=
    (table_lengths feats.length w).2
  have hzlen : (zipWith3 rotateRow feats (build_trig_vector feats.length w).1
      (build_trig_vector feats.length w).2).length = feats.length := by
    rw [zipWith3_length, ht1, ht2]; omega
  have hz : ∀ p, p < feats.length →
      (zipWith3 rotateRow feats (build_trig_vector feats.length w).1
        (build_trig_vector feats.length w).2).getD p none
      = some (rotCore (feats.getD p [])
          ((build_trig_vector feats.length w).1.getD p [])
          ((build_trig_vector feats.length w).2.getD p [])) := by
    intro p hp
    rw [zipWith3_getD _ _ _ _ p hp (by rw [ht1]; exact hp) (by rw [ht2]; exact hp)]
    have hmem : feats.getD p [] ∈ feats := by
      rw [List.getD_eq_getElem _ _ hp]
      exact List.getElem_mem hp
    have hrw : (feats.getD p []).length = w := hrows _ hmem
    apply rotateRow_eq_some
    · rw [hrw]; exact hweven
    · rw [sin_table_row_length _ _ _ hp, hrw, hweven]
    · rw [cos_table_row_length _ _ _ hp, hrw, hweven]
  have hall : ∀ o ∈ zipWith3 rotateRow feats (build_trig_vector feats.length w).1
      (build_trig_vector feats.length w).2, o.isSome := by
    intro o ho
    obtain ⟨i, hi, he⟩ := List.mem_iff_getElem.mp ho
    have hi2 : i < feats.length := by rw [hzlen] at hi; exact hi
    have := hz i hi2
    rw [List.getD_eq_getElem _ _ hi, he] at this
    rw [this]
    rfl
  obtain ⟨out, ho, hlen, hent⟩ := seqOpt_spec _ hall
  refine ⟨out, ho, by rw [hlen, hzlen], ?_⟩
  intro p hp
  have h1 := hent p (by rw [hzlen]; exact hp)
  rw [hz p hp] at h1
  exact (Option.some_inj.mp h1).symm

theorem ext_of_getD (xs ys : List ℝ) (h : xs.length = ys.length)
    (he : ∀ j, j < xs.length → xs.getD j 0 = ys.getD j 0) : xs = ys := by
  apply List.ext_getElem h
  intro n h1 h2
  have h3 := he n h1
  rwa [List.getD_eq_getElem _ _ h1, List.getD_eq_getElem _ _ h2] at h3

theorem getD_row_length (w : ℕ) (feats : List (List ℝ))
    (hrows : ∀ r ∈ feats, r.length = w) (p : ℕ) (hp : p < feats.length) :
    (feats.getD p []).length = w := by
  apply hrows
  rw [List.getD_eq_getElem _ _ hp]
  exact List.getElem_mem hp

/-- C1: for every positive length and positive even feature width, the
sin and cos tables of build_trig_vector have full-width rows whose
entries at last-axis coordinates 2k and 2k+1 both equal
sin(p * freq[k]) resp. cos(p * freq[k]), with
freq[k] = 10000^(-2k/steps), steps = w/2: each raw entry is duplicated
in place, not tiled. -/
theorem claim_C1 (L w p k : ℕ) (hL : 0 < L) (hw : 0 < w) (hev : w % 2 = 0)
    (hp : p < L) (hk : k < w / 2) :
    freqv w k = (10000 : ℝ) ^ (((-2 : ℝ) * (k : ℝ)) / ((w / 2 : ℕ) : ℝ))
    ∧ ((build_trig_vector L w).1.getD p []).length = w
    ∧ ((build_trig_vector L w).2.getD p []).length = w
    ∧ ((build_trig_vector L w).1.getD p []).getD (2 * k) 0
        = Real.sin ((p : ℝ) * freqv w k)
    ∧ ((build_trig_vector L w).1.getD p []).getD (2 * k + 1) 0
        = Real.sin ((p : ℝ) * freqv w k)
    ∧ ((build_trig_vector L w).2.getD p []).getD (2 * k) 0
        = Real.cos ((p : ℝ) * freqv w k)
    ∧ ((build_trig_vector L w).2.getD p []).getD (2 * k + 1) 0
        = Real.cos ((p : ℝ) * freqv w k) := by
  have hweven : 2 * (w / 2) = w := by omega
  refine ⟨rfl, ?_, ?_, ?_, ?_, ?_, ?_⟩
  · rw [sin_table_row_length L w p hp, hweven]
  · rw [cos_table_row_length L w p hp, hweven]
  · exact (sin_table_entry L w p k hp hk).1
  · exact (sin_table_entry L w p k hp hk).2
  · exact (cos_table_entry L w p k hp hk).1
  · exact (cos_table_entry L w p k hp hk).2

theorem claim_C1_witness :
    0 < 2 ∧ 0 < 4 ∧ 4 % 2 = 0 ∧ 1 < 2 ∧ 1 < 4 / 2
    ∧ (freqv 4 1 = (10000 : ℝ) ^ (((-2 : ℝ) * ((1 : ℕ) : ℝ)) / ((4 / 2 : ℕ) : ℝ))
      ∧ ((build_trig_vector 2 4).1.getD 1 []).length = 4
      ∧ ((build_trig_vector 2 4).2.getD 1 []).length = 4
      ∧ ((build_trig_vector 2 4).1.getD 1 []).getD (2 * 1) 0
          = Real.sin (((1 : ℕ) : ℝ) * freqv 4 1)
      ∧ ((build_trig_vector 2 4).1.getD 1 []).getD (2 * 1 + 1) 0
          = Real.sin (((1 : ℕ) : ℝ) * freqv 4 1)
      ∧ ((build_trig_vector 2 4).2.getD 1 []).getD (2 * 1) 0
          = Real.cos (((1 : ℕ) : ℝ) * freqv 4 1)
      ∧ ((build_trig_vector 2 4).2.getD 1 []).getD (2 * 1 + 1) 0
          = Real.cos (((1 : ℕ) : ℝ) * freqv 4 1)) :=
  ⟨by decide, by decide, by decide, by decide, by decide,
    claim_C1 2 4 1 1 (by decide) (by decide) (by decide) (by decide) (by decide)⟩

/-- C2: for every even feature width and every tensor of full-width
rows, the rotation in roformer_recompute_qkv succeeds, preserves the
shape, and maps each coordinate pair (x, y) at position p and pair
index k to (x cos a - y sin a, y cos a + x sin a) with
a = p * freq[k]; the embedding is purely functional, the input tensor
is untouched. -/
theorem claim_C2 (w : ℕ) (hw : w % 2 = 0) (feats : List (List ℝ))
    (hrows : ∀ r ∈ feats, r.length = w) :
    ∃ out, rotateTensor w feats = some out
      ∧ out.length = feats.length
      ∧ (∀ p, p < feats.length → (out.getD p []).length = (feats.getD p []).length)
      ∧ ∀ p k, p < feats.length → 2 * k + 1 < w →
          (out.getD p []).getD (2 * k) 0
            = (feats.getD p []).getD (2 * k) 0 * Real.cos ((p : ℝ) * freqv w k)
              - (feats.getD p []).getD (2 * k + 1) 0 * Real.sin ((p : ℝ) * freqv w k)
          ∧ (out.getD p []).getD (2 * k + 1) 0
            = (feats.getD p []).getD (2 * k + 1) 0 * Real.cos ((p : ℝ) * freqv w k)
              + (feats.getD p []).getD (2 * k) 0 * Real.sin ((p : ℝ) * freqv w k) := by
  have hweven : 2 * (w / 2) = w := by omega
  obtain ⟨out, ho, hlen, hent⟩ := rotateTensor_spec w feats hw hrows
  refine ⟨out, ho, hlen, ?_, ?_⟩
  · intro p hp
    have hrw : (feats.getD p []).length = w := getD_row_length w feats hrows p hp
    rw [hent p hp, rotCore_length _ _ _ (by rw [hrw]; exact hweven)
      (by rw [sin_table_row_length _ _ _ hp, hrw, hweven])
      (by rw [cos_table_row_length _ _ _ hp, hrw, hweven])]
  · intro p k hp hk
    have hrw : (feats.getD p []).length = w := getD_row_length w feats hrows p hp
    have hpair := rotCore_table_pair feats.length w p k (feats.getD p []) hw hrw hp hk
    rw [hent p hp]
    exact hpair

theorem claim_C2_witness :
    2 % 2 = 0 ∧ (∀ r ∈ [[(1 : ℝ), 0]], r.length = 2)
    ∧ ∃ out, rotateTensor 2 [[(1 : ℝ), 0]] = some out
      ∧ out.length = [[(1 : ℝ), 0]].length
      ∧ (∀ p, p < [[(1 : ℝ), 0]].length →
          (out.getD p []).length = ([[(1 : ℝ), 0]].getD p []).length)
      ∧ ∀ p k, p < [[(1 : ℝ), 0]].length → 2 * k + 1 < 2 →
          (out.getD p []).getD (2 * k) 0
            = ([[(1 : ℝ), 0]].getD p []).getD (2 * k) 0 * Real.cos ((p : ℝ) * freqv 2 k)
              - ([[(1 : ℝ), 0]].getD p []).getD (2 * k + 1) 0
                * Real.sin ((p : ℝ) * freqv 2 k)
          ∧ (out.getD p []).getD (2 * k + 1) 0
            = ([[(1 : ℝ), 0]].getD p []).getD (2 * k + 1) 0
                * Real.cos ((p : ℝ) * freqv 2 k)
              + ([[(1 : ℝ), 0]].getD p []).getD (2 * k) 0
                * Real.sin ((p : ℝ) * freqv 2 k) :=
  ⟨by decide, by simp,
    claim_C2 2 (by decide) [[(1 : ℝ), 0]] (by simp)⟩

/-- C4: the rotation is norm-preserving per coordinate pair: over the
reals, rotated[2k]^2 + rotated[2k+1]^2 equals
original[2k]^2 + original[2k+1]^2 at every position. -/
theorem claim_C4 (w : ℕ) (hw : w % 2 = 0) (feats : List (List ℝ))
    (hrows : ∀ r ∈ feats, r.length = w) (p k : ℕ)
    (hp : p < feats.length) (hk : 2 * k + 1 < w) :
    ∃ out, rotateTensor w feats = some out
      ∧ (out.getD p []).getD (2 * k) 0 ^ 2 + (out.getD p []).getD (2 * k + 1) 0 ^ 2
        = (feats.getD p []).getD (2 * k) 0 ^ 2
          + (feats.getD p []).getD (2 * k + 1) 0 ^ 2 := by
  obtain ⟨out, ho, hlen, hent⟩ := rotateTensor_spec w feats hw hrows
  refine ⟨out, ho, ?_⟩
  have hrw : (feats.getD p []).length = w := getD_row_length w feats hrows p hp
  obtain ⟨h1, h2⟩ := rotCore_table_pair feats.length w p k (feats.getD p []) hw hrw hp hk
  rw [hent p hp, h1, h2]
  have hpyth := Real.sin_sq_add_cos_sq ((p : ℝ) * freqv w k)
  set x := (feats.getD p []).getD (2 * k) 0
  set y := (feats.getD p []).getD (2 * k + 1) 0
  linear_combination (x ^ 2 + y ^ 2) * hpyth

theorem claim_C4_witness :
    2 % 2 = 0 ∧ (∀ r ∈ [[(3 : ℝ), 4]], r.length = 2) ∧ 0 < [[(3 : ℝ), 4]].length
    ∧ 2 * 0 + 1 < 2
    ∧ ∃ out, rotateTensor 2 [[(3 : ℝ), 4]] = some out
      ∧ (out.getD 0 []).getD (2 * 0) 0 ^ 2 + (out.getD 0 []).getD (2 * 0 + 1) 0 ^ 2
        = ([[(3 : ℝ), 4]].getD 0 []).getD (2 * 0) 0 ^ 2
          + ([[(3 : ℝ), 4]].getD 0 []).getD (2 * 0 + 1) 0 ^ 2 :=
  ⟨by decide, by simp, by simp, by decide,
    claim_C4 2 (by decide) [[(3 : ℝ), 4]] (by simp) 0 0 (by simp) (by decide)⟩

/-- C5: composing the rotation of position p1 with the rotation of
position p2 (rows taken from one table of length L) equals the single
rotation of position p1 + p2, on every full-width feature row: the
property that makes rotated dot products depend only on relative
position. -/
theorem claim_C5 (w L p1 p2 : ℕ) (hw : w % 2 = 0) (row : List ℝ)
    (hrow : row.length = w) (h1 : p1 < L) (h2 : p2 < L) (h12 : p1 + p2 < L) :
    (rotateRow row ((build_trig_vector L w).1.getD p1 [])
        ((build_trig_vector L w).2.getD p1 [])).bind
      (fun r => rotateRow r ((build_trig_vector L w).1.getD p2 [])
        ((build_trig_vector L w).2.getD p2 []))
    = rotateRow row ((build_trig_vector L w).1.getD (p1 + p2) [])
        ((build_trig_vector L w).2.getD (p1 + p2) []) := by
  have hweven : 2 * (w / 2) = w := by omega
  have hrow2 : 2 * (row.length / 2) = row.length := by rw [hrow]; exact hweven
  have hs1 : ((build_trig_vector L w).1.getD p1 []).length = row.length := by
    rw [sin_table_row_length _ _ _ h1, hrow, hweven]
  have hc1 : ((build_trig_vector L w).2.getD p1 []).length = row.length := by
    rw [cos_table_row_length _ _ _ h1, hrow, hweven]
  have hmid := rotateRow_eq_some row _ _ hrow2 hs1 hc1
  set r1 := rotCore row ((build_trig_vector L w).1.getD p1 [])
    ((build_trig_vector L w).2.getD p1 []) with hr1
  have hr1len : r1.length = row.length := rotCore_length _ _ _ hrow2 hs1 hc1
  have hr1w : r1.length = w := by rw [hr1len, hrow]
  have hr1even : 2 * (r1.length / 2) = r1.length := by rw [hr1w]; exact hweven
  have hs2 : ((build_trig_vector L w).1.getD p2 []).length = r1.length := by
    rw [sin_table_row_length _ _ _ h2, hr1w, hweven]
  have hc2 : ((build_trig_vector L w).2.getD p2 []).length = r1.length := by
    rw [cos_table_row_length _ _ _ h2, hr1w, hweven]
  have hs12 : ((build_trig_vector L w).1.getD (p1 + p2) []).length = row.length := by
    rw [sin_table_row_length _ _ _ h12, hrow, hweven]
  have hc12 : ((build_trig_vector L w).2.getD (p1 + p2) []).length = row.length := by
    rw [cos_table_row_length _ _ _ h12, hrow, hweven]
  rw [hmid, Option.some_bind]
  rw [rotateRow_eq_some r1 _ _ hr1even hs2 hc2,
    rotateRow_eq_some row _ _ hrow2 hs12 hc12]
  congr 1
  apply ext_of_getD
  · rw [rotCore_length _ _ _ hr1even hs2 hc2, hr1w,
      rotCore_length _ _ _ hrow2 hs12 hc12, hrow]
  · intro j hj
    have hjw : j < w := by
      rw [rotCore_length _ _ _ hr1even hs2 hc2, hr1w] at hj
      exact hj
    have hdecomp : j = 2 * (j / 2) ∨ j = 2 * (j / 2) + 1 := by omega
    have hkb : 2 * (j / 2) + 1 < w := by omega
    set k := j / 2
    obtain ⟨ho1, ho2⟩ := rotCore_table_pair L w p1 k row hw hrow h1 hkb
    obtain ⟨hm1, hm2⟩ := rotCore_table_pair L w p2 k r1 hw hr1w h2 hkb
    obtain ⟨ht1, ht2⟩ := rotCore_table_pair L w (p1 + p2) k row hw hrow h12 hkb
    rw [← hr1] at ho1 ho2
    have hcast : ((p1 + p2 : ℕ) : ℝ) * freqv w k
        = (p1 : ℝ) * freqv w k + (p2 : ℝ) * freqv w k := by
      push_cast
      ring
    rcases hdecomp with hje | hjo
    · rw [hje, hm1, ho1, ho2, ht1, hcast, Real.cos_add, Real.sin_add]
      ring
    · rw [hjo, hm2, ho1, ho2, ht2, hcast, Real.cos_add, Real.sin_add]
      ring

theorem claim_C5_witness :
    2 % 2 = 0 ∧ ([(5 : ℝ), 7] : List ℝ).length = 2 ∧ 1 < 4 ∧ 2 < 4 ∧ 1 + 2 < 4
    ∧ ((rotateRow [(5 : ℝ), 7] ((build_trig_vector 4 2).1.getD 1 [])
          ((build_trig_vector 4 2).2.getD 1 [])).bind
        (fun r => rotateRow r ((build_trig_vector 4 2).1.getD 2 [])
          ((build_trig_vector 4 2).2.getD 2 []))
      = rotateRow [(5 : ℝ), 7] ((build_trig_vector 4 2).1.getD (1 + 2) [])
          ((build_trig_vector 4 2).2.getD (1 + 2) [])) :=
  ⟨by decide, by simp, by decide, by decide, by decide,
    claim_C5 2 4 1 2 (by decide) [(5 : ℝ), 7] (by simp) (by decide) (by decide)
      (by decide)⟩

/-- C6: at position 0 the sin row is identically 0 and the cos row is
identically 1, and rotating any full-width feature row with the
position-0 rows returns the row unchanged. -/
theorem claim_C6 (w L : ℕ) (hw : w % 2 = 0) (hL : 0 < L) (row : List ℝ)
    (hrow : row.length = w) :
    (∀ j, j < w → ((build_trig_vector L w).1.getD 0 []).getD j 0 = 0
      ∧ ((build_trig_vector L w).2.getD 0 []).getD j 0 = 1)
    ∧ rotateRow row ((build_trig_vector L w).1.getD 0 [])
        ((build_trig_vector L w).2.getD 0 []) = some row := by
  have hweven : 2 * (w / 2) = w := by omega
  have htab : ∀ j, j < w → ((build_trig_vector L w).1.getD 0 []).getD j 0 = 0
      ∧ ((build_trig_vector L w).2.getD 0 []).getD j 0 = 1 := by
    intro j hj
    have hkb : j / 2 < w / 2 := by omega
    have hdecomp : j = 2 * (j / 2) ∨ j = 2 * (j / 2) + 1 := by omega
    have hsv := sin_table_entry L w 0 (j / 2) hL hkb
    have hcv := cos_table_entry L w 0 (j / 2) hL hkb
    have hzero : ((0 : ℕ) : ℝ) * freqv w (j / 2) = 0 := by
      push_cast
      ring
    rw [hzero] at hsv hcv
    rw [Real.sin_zero] at hsv
    rw [Real.cos_zero] at hcv
    rcases hdecomp with hje | hjo
    · rw [hje]; exact ⟨hsv.1, hcv.1⟩
    · rw [hjo]; exact ⟨hsv.2, hcv.2⟩
  refine ⟨htab, ?_⟩
  have hrow2 : 2 * (row.length / 2) = row.length := by rw [hrow]; exact hweven
  have hs : ((build_trig_vector L w).1.getD 0 []).length = row.length := by
    rw [sin_table_row_length _ _ _ hL, hrow, hweven]
  have hc : ((build_trig_vector L w).2.getD 0 []).length = row.length := by
    rw [cos_table_row_length _ _ _ hL, hrow, hweven]
  rw [rotateRow_eq_some row _ _ hrow2 hs hc]
  congr 1
  apply ext_of_getD
  · rw [rotCore_length _ _ _ hrow2 hs hc]
  · intro j hj
    have hjw : j < w := by
      rw [rotCore_length _ _ _ hrow2 hs hc, hrow] at hj
      exact hj
    have hjr : j < row.length := by rw [hrow]; exact hjw
    rw [rotCore_getD _ _ _ _ hrow2 hs hc hjr, (htab j hjw).1, (htab j hjw).2]
    ring

theorem claim_C6_witness :
    2 % 2 = 0 ∧ 0 < 3 ∧ ([(2 : ℝ), 9] : List ℝ).length = 2
    ∧ ((∀ j, j < 2 → ((build_trig_vector 3 2).1.getD 0 []).getD j 0 = 0
        ∧ ((build_trig_vector 3 2).2.getD 0 []).getD j 0 = 1)
      ∧ rotateRow [(2 : ℝ), 9] ((build_trig_vector 3 2).1.getD 0 [])
          ((build_trig_vector 3 2).2.getD 0 []) = some [(2 : ℝ), 9]) :=
  ⟨by decide, by decide, by simp,
    claim_C6 2 3 (by decide) (by decide) [(2 : ℝ), 9] (by simp)⟩

/-- C3: concrete scenario with feature_width = 4 and length = 2: the
frequency bank is [1, 0.0001], the position-1 table rows are the
duplicated sines and cosines of 1 and 0.0001, and rotating the feature
row [1, 0, 1, 0] at position 1 gives
[cos 1, sin 1, cos 0.0001, sin 0.0001]. -/
theorem claim_C3 :
    freqList 4 = [1, 0.0001]
    ∧ (build_trig_vector 2 4).1.getD 1 []
        = [Real.sin 1, Real.sin 1, Real.sin 0.0001, Real.sin 0.0001]
    ∧ (build_trig_vector 2 4).2.getD 1 []
        = [Real.cos 1, Real.cos 1, Real.cos 0.0001, Real.cos 0.0001]
    ∧ rotateRow [1, 0, 1, 0] ((build_trig_vector 2 4).1.getD 1 [])
        ((build_trig_vector 2 4).2.getD 1 [])
      = some [Real.cos 1, Real.sin 1, Real.cos 0.0001, Real.sin 0.0001] := by
  have h0 : freqv 4 0 = 1 := by
    rw [freqv]
    norm_num
  have h1 : freqv 4 1 = 0.0001 := by
    rw [freqv]
    have he : ((-2 : ℝ) * ((1 : ℕ) : ℝ)) / (((4 / 2 : ℕ)) : ℝ) = -1 := by norm_num
    rw [he, Real.rpow_neg_one]
    norm_num
  have hfl : freqList 4 = [1, 0.0001] := by
    have hr : List.range (4 / 2) = [0, 1] := by decide
    rw [freqList, hr]
    simp [h0, h1]
  have hsin : (build_trig_vector 2 4).1.getD 1 []
      = [Real.sin 1, Real.sin 1, Real.sin 0.0001, Real.sin 0.0001] := by
    rw [sin_table_row 2 4 1 (by norm_num), hfl]
    norm_num [repeat2]
  have hcos : (build_trig_vector 2 4).2.getD 1 []
      = [Real.cos 1, Real.cos 1, Real.cos 0.0001, Real.cos 0.0001] := by
    rw [cos_table_row 2 4 1 (by norm_num), hfl]
    norm_num [repeat2]
  refine ⟨hfl, hsin, hcos, ?_⟩
  rw [hsin, hcos]
  simp [rotateRow, tfReshape, tfMul, tfAdd, swapNegCore, strided]

/-- C7: roformer_recompute_qkv returns the value tensor untouched
whenever it returns at all; under even width and full-width rows it
succeeds, and the query is rotated with the table of the query length
while the key uses the table of the key length, which may differ. -/
theorem claim_C7 (w : ℕ) (hw : w % 2 = 0) (q k v : List (List ℝ))
    (hq : ∀ r ∈ q, r.length = w) (hk : ∀ r ∈ k, r.length = w) :
    (∀ res, roformer_recompute_qkv w q k v = some res → res.2.2 = v)
    ∧ ∃ q2 k2, roformer_recompute_qkv w q k v = some (q2, k2, v)
      ∧ seqOpt (zipWith3 rotateRow q (build_trig_vector q.length w).1
          (build_trig_vector q.length w).2) = some q2
      ∧ seqOpt (zipWith3 rotateRow k (build_trig_vector k.length w).1
          (build_trig_vector k.length w).2) = some k2 := by
  obtain ⟨q2, hq2, hqlen, hqent⟩ := rotateTensor_spec w q hw hq
  obtain ⟨k2, hk2, hklen, hkent⟩ := rotateTensor_spec w k hw hk
  constructor
  · intro res hres
    rw [roformer_recompute_qkv, hq2, hk2] at hres
    simp at hres
    rw [← hres]
  · exact ⟨q2, k2, by rw [roformer_recompute_qkv, hq2, hk2]; rfl, hq2, hk2⟩

theorem claim_C7_witness :
    2 % 2 = 0 ∧ (∀ r ∈ [[(1 : ℝ), 2]], r.length = 2)
    ∧ (∀ r ∈ [[(3 : ℝ), 4], [5, 6]], r.length = 2)
    ∧ ((∀ res, roformer_recompute_qkv 2 [[(1 : ℝ), 2]] [[(3 : ℝ), 4], [5, 6]]
          [[(7 : ℝ), 8, 9]] = some res → res.2.2 = [[(7 : ℝ), 8, 9]])
      ∧ ∃ q2 k2, roformer_recompute_qkv 2 [[(1 : ℝ), 2]] [[(3 : ℝ), 4], [5, 6]]
          [[(7 : ℝ), 8, 9]] = some (q2, k2, [[(7 : ℝ), 8, 9]])
        ∧ seqOpt (zipWith3 rotateRow [[(1 : ℝ), 2]]
            (build_trig_vector [[(1 : ℝ), 2]].length 2).1
            (build_trig_vector [[(1 : ℝ), 2]].length 2).2) = some q2
        ∧ seqOpt (zipWith3 rotateRow [[(3 : ℝ), 4], [5, 6]]
            (build_trig_vector [[(3 : ℝ), 4], [5, 6]].length 2).1
            (build_trig_vector [[(3 : ℝ), 4], [5, 6]].length 2).2) = some k2) :=
  ⟨by decide, by simp, by simp,
    claim_C7 2 (by decide) [[(1 : ℝ), 2]] [[(3 : ℝ), 4], [5, 6]] [[(7 : ℝ), 8, 9]]
      (by simp) (by simp)⟩

/-- C8: under the fixed precision of the embedding, the rotation table
builder is a pure function of its two arguments: two calls with equal
arguments yield equal sin and cos tables, with no other state
involved. -/
theorem claim_C8 (L1 w1 L2 w2 : ℕ) (hL : L1 = L2) (hw : w1 = w2) :
    build_trig_vector L1 w1 = build_trig_vector L2 w2 := by
  rw [hL, hw]

theorem claim_C8_witness :
    3 = 3 ∧ 4 = 4 ∧ build_trig_vector 3 4 = build_trig_vector 3 4 :=
  ⟨rfl, rfl, claim_C8 3 4 3 4 rfl rfl⟩

/-- Modelled from the spec: the dense query/key/value projections and
the attention scorer come from the external tf.keras MultiHeadAttention
base class and are not part of this repository; per section 6 of the
spec they are abstracted as arbitrary deterministic collaborator
functions.  The key-defaulting step (if key is None: key = value) and
the placement of roformer_recompute_qkv between the projections and the
scorer are taken from call in roformer_attention.py. -/
noncomputable def roformerCall
    (queryDense keyDense valueDense : List (List ℝ) → List (List ℝ))
    (scorer : List (List ℝ) → List (List ℝ) → List (List ℝ) → List (List ℝ))
    (key_dim : ℕ) (query value : List (List ℝ)) (key : Option (List (List ℝ))) :
    Option (List (List ℝ)) :=
  (roformer_recompute_qkv key_dim (queryDense query) (keyDense (key.getD value))
      (valueDense value)).map
    (fun t => scorer t.1 t.2.1 t.2.2)

/-- C9: calling the layer without a key behaves exactly as calling it
with the key equal to the value tensor; the layer defaults to
self-attention over value. -/
theorem claim_C9 (queryDense keyDense valueDense : List (List ℝ) → List (List ℝ))
    (scorer : List (List ℝ) → List (List ℝ) → List (List ℝ) → List (List ℝ))
    (key_dim : ℕ) (query value : List (List ℝ)) :
    roformerCall queryDense keyDense valueDense scorer key_dim query value none
      = roformerCall queryDense keyDense valueDense scorer key_dim query value
          (some value) := rfl

/-- C10: with an odd feature width the table rows come out one entry
short (2 * (w / 2) = w - 1), the elementwise products against a
width-w row are shape mismatches, and the whole per-tensor rotation
fails instead of producing a rotated tensor. -/
theorem claim_C10 (w L p : ℕ) (hw : w % 2 = 1) (hp : p < L) (row : List ℝ)
    (hrow : row.length = w) (f : List ℝ) (feats : List (List ℝ))
    (hrows : ∀ r ∈ f :: feats, r.length = w) :
    ((build_trig_vector L w).1.getD p []).length = w - 1
    ∧ ((build_trig_vector L w).2.getD p []).length = w - 1
    ∧ tfMul row ((build_trig_vector L w).1.getD p []) = none
    ∧ tfMul row ((build_trig_vector L w).2.getD p []) = none
    ∧ rotateTensor w (f :: feats) = none := by
  have hodd : 2 * (w / 2) = w - 1 := by omega
  have hs : ((build_trig_vector L w).1.getD p []).length = w - 1 := by
    rw [sin_table_row_length L w p hp, hodd]
  have hc : ((build_trig_vector L w).2.getD p []).length = w - 1 := by
    rw [cos_table_row_length L w p hp, hodd]
  have hne : w - 1 ≠ w := by omega
  refine ⟨hs, hc, ?_, ?_, ?_⟩
  · rw [tfMul, if_neg]
    rw [hrow, hs]
    omega
  · rw [tfMul, if_neg]
    rw [hrow, hc]
    omega
  · have hf : f.length = w := hrows f (by simp)
    have hfail : rotateRow f ((build_trig_vector (f :: feats).length w).1.getD 0 [])
        ((build_trig_vector (f :: feats).length w).2.getD 0 []) = none := by
      rw [rotateRow]
      have hre : tfReshape f.length (swapNegCore f) = none := by
        rw [tfReshape, if_neg]
        rw [swapNegCore_length, hf, hodd]
        omega
      rw [hre]
      rfl
    have ht1 : (build_trig_vector (f :: feats).length w).1
        = (build_trig_vector (f :: feats).length w).1.getD 0 []
          :: (build_trig_vector (f :: feats).length w).1.tail := by
      have hlen : (build_trig_vector (f :: feats).length w).1.length = feats.length + 1 :=
        by rw [(table_lengths _ _).1]; simp
      cases he : (build_trig_vector (f :: feats).length w).1 with
      | nil => rw [he] at hlen; simp at hlen
      | cons a t => simp
    have ht2 : (build_trig_vector (f :: feats).length w).2
        = (build_trig_vector (f :: feats).length w).2.getD 0 []
          :: (build_trig_vector (f :: feats).length w).2.tail := by
      have hlen : (build_trig_vector (f :: feats).length w).2.length = feats.length + 1 :=
        by rw [(table_lengths _ _).2]; simp
      cases he : (build_trig_vector (f :: feats).length w).2 with
      | nil => rw [he] at hlen; simp at hlen
      | cons a t => simp
    rw [rotateTensor]
    rw [ht1, ht2, zipWith3, hfail, seqOpt_head_none]

theorem claim_C10_witness :
    3 % 2 = 1 ∧ 0 < 1 ∧ ([(1 : ℝ), 2, 3] : List ℝ).length = 3
    ∧ (∀ r ∈ [(1 : ℝ), 2, 3] :: ([] : List (List ℝ)), r.length = 3)
    ∧ (((build_trig_vector 1 3).1.getD 0 []).length = 3 - 1
      ∧ ((build_trig_vector 1 3).2.getD 0 []).length = 3 - 1
      ∧ tfMul [(1 : ℝ), 2, 3] ((build_trig_vector 1 3).1.getD 0 []) = none
      ∧ tfMul [(1 : ℝ), 2, 3] ((build_trig_vector 1 3).2.getD 0 []) = none
      ∧ rotateTensor 3 ([(1 : ℝ), 2, 3] :: []) = none) :=
  ⟨by decide, by decide, by simp, by simp,
    claim_C10 3 1 0 (by decide) (by decide) [(1 : ℝ), 2, 3] (by simp)
      [(1 : ℝ), 2, 3] [] (by simp)⟩

end Roformer
